import Mathlib

/-!
Verification of the ScriptView subtitle pipeline (src/main.rs).

The embedded code is:
  * `filter_prefix_subtitles` (main.rs lines 45-61): the prefix-collapsing
    deduplication pass over the parsed subtitle list;
  * `SubtitleViewer.load_subtitles` (main.rs lines 96-106): one reload cycle,
    with the filesystem read and the serde_json parse abstracted as
    explicit inputs (an `Option String` read result and a parse function).

Machine numerics that the pipeline never inspects (`f64` times, `i64`
timestamp) are modelled by `Rat` / `Int`; the collapse and reload logic
only copies those fields around, so any type with decidable equality is a
faithful carrier for them.
-/

/-- Model of Rust `str::starts_with(&str)`: `starts_with s p` holds when `p`
is a literal prefix of `s` (case-sensitive, character-exact, empty and
equal strings included).  On UTF-8 strings the byte-prefix test performed
by Rust coincides with the character-sequence prefix test used here. -/
def starts_with (s pre : String) : Bool :=
  pre.data.isPrefixOf s.data

/-- Model of `SubtitleEntry` (main.rs lines 11-18). -/
structure SubtitleEntry where
  text : String
  start_time : Rat
  end_time : Option Rat
  timestamp : Int
deriving DecidableEq, Inhabited, Repr

/-- Model of `filter_prefix_subtitles` (main.rs lines 45-61): a fold over the
index range `0..len`, pushing `subtitles[i]` onto the accumulator exactly
when `i` is the last index or `subtitles[i].text` is not a prefix of
`subtitles[i+1].text`. -/
def filter_prefix_subtitles (subtitles : List SubtitleEntry) : List SubtitleEntry :=
  (List.range subtitles.length).foldl
    (fun filtered i =>
      let should_include :=
        if i < subtitles.length - 1 then
          !(starts_with (subtitles.getD (i + 1) default).text (subtitles.getD i default).text)
        else
          true
      if should_include then filtered ++ [subtitles.getD i default] else filtered)
    []

/-- Index-free restatement of the same filter, used as a bridge between the
index-based source code and structural induction. -/
def idxCollapse (S : List SubtitleEntry) : List SubtitleEntry :=
  ((List.range S.length).filter (fun i =>
    if i < S.length - 1 then
      !(starts_with (S.getD (i + 1) default).text (S.getD i default).text)
    else
      true)).map (fun i => S.getD i default)

/-- Structural-recursion form of the collapse: drop the head exactly when its
text is a prefix of the next entry's text. -/
def collapseRec : List SubtitleEntry → List SubtitleEntry
  | [] => []
  | [a] => [a]
  | a :: b :: rest =>
    if starts_with b.text a.text then collapseRec (b :: rest)
    else a :: collapseRec (b :: rest)

/-- Written from the spec's words (spec §4.2, "Algorithm (must reproduce
exactly)"): for each position `i`, if `i < length - 1` and entry `i`'s text
is a literal prefix of entry `i+1`'s text the entry is dropped (`none`),
otherwise it is retained; the entry at the last position is always
retained. -/
def collapse_spec (S : List SubtitleEntry) : List SubtitleEntry :=
  (List.range S.length).filterMap (fun i =>
    if i < S.length - 1 then
      if starts_with (S.getD (i + 1) default).text (S.getD i default).text then none
      else some (S.getD i default)
    else
      some (S.getD i default))

/-- Convenience constructor matching `create_subtitle` in the Rust tests. -/
def mkEntry (t : String) : SubtitleEntry :=
  { text := t, start_time := 0, end_time := none, timestamp := 0 }

/-- Maximal runs of consecutive entries linked by the prefix relation: a new
run is opened exactly where the source filter would retain the earlier
entry.  Used to state the "one retained entry per maximal prefix chain"
property. -/
def prefixRuns : List SubtitleEntry → List (List SubtitleEntry)
  | [] => []
  | [a] => [[a]]
  | a :: b :: rest =>
    match prefixRuns (b :: rest) with
    | [] => [[a]]
    | r :: rs =>
      if starts_with b.text a.text then (a :: r) :: rs else [a] :: r :: rs

/-- Checked natural subtraction, modelling the `usize` subtraction
`subtitles.len() - 1` that would panic on underflow in a debug build. -/
def checked_sub (a b : Nat) : Option Nat :=
  if b ≤ a then some (a - b) else none

/-- Panic-explicit variant of `filter_prefix_subtitles`: every `Vec` index
(`subtitles[i]`, `subtitles[i + 1]`) and the `len - 1` subtraction go
through `Option`, with `none` modelling a Rust panic, and each access is
performed exactly where the source performs it. -/
def filter_prefix_subtitles_checked (subtitles : List SubtitleEntry) :
    Option (List SubtitleEntry) :=
  (List.range subtitles.length).foldl
    (fun acc i =>
      acc.bind (fun filtered =>
        ((checked_sub subtitles.length 1).bind (fun lim =>
          if i < lim then
            (subtitles.get? (i + 1)).bind (fun nxt =>
              (subtitles.get? i).map (fun cur => !(starts_with nxt.text cur.text)))
          else
            some true)).bind (fun should_include =>
          if should_include then
            (subtitles.get? i).map (fun cur => filtered ++ [cur])
          else
            some filtered)))
    (some [])

/-- Model of the fields of `SubtitleViewer` (main.rs lines 20-29) that
`load_subtitles` reads or writes.  The channel, watcher and UI fields are
not touched by the reload cycle and are omitted. -/
structure SubtitleViewer where
  subtitles : List SubtitleEntry
  file_exists : Bool
  script_installed : Bool
deriving DecidableEq, Repr

/-- Model of `SubtitleViewer::load_subtitles` (main.rs lines 96-106).  The
two effectful inputs are passed explicitly: `read_result` is the outcome of
`std::fs::read_to_string` (`none` = I/O error), and `parse` is
`serde_json::from_str` (`none` = parse error); `path_exists_now` and
`script_installed_now` are the freshly polled filesystem statuses.  On any
read or parse failure the stored subtitles are left as they were. -/
def load_subtitles (viewer : SubtitleViewer) (path_exists_now script_installed_now : Bool)
    (read_result : Option String) (parse : String → Option (List SubtitleEntry)) :
    SubtitleViewer :=
  let viewer := { viewer with
    file_exists := path_exists_now
    script_installed := script_installed_now }
  match read_result with
  | some content =>
    match parse content with
    | some subs => { viewer with subtitles := filter_prefix_subtitles subs }
    | none => viewer
  | none => viewer

section Theorems

/-- A fold that conditionally pushes one element per index is a
filter-then-map. -/
theorem foldl_push_filter {α : Type} (f : List α → Nat → List α) (p : Nat → Bool)
    (g : Nat → α) (hf : ∀ acc i, f acc i = if p i then acc ++ [g i] else acc) :
    ∀ (l : List Nat) (acc : List α), l.foldl f acc = acc ++ (l.filter p).map g := by
  intro l
  induction l with
  | nil => intro acc; simp
  | cons i t ih =>
    intro acc
    rw [List.foldl_cons, hf, ih]
    by_cases h : p i <;> simp [h, List.filter_cons]

/-- The source fold computes the filter-then-map normal form. -/
theorem filter_prefix_eq_idx (S : List SubtitleEntry) :
    filter_prefix_subtitles S = idxCollapse S :=
  foldl_push_filter _
    (fun i =>
      if i < S.length - 1 then
        !(starts_with (S.getD (i + 1) default).text (S.getD i default).text)
      else
        true)
    (fun i => S.getD i default)
    (fun _ _ => rfl)
    (List.range S.length) []

/-- Peeling the first index off a filter-then-map over a range. -/
theorem range_filter_map_cons {α : Type} (n : Nat) (p : Nat → Bool) (g : Nat → α) :
    ((List.range (n + 1)).filter p).map g
      = (if p 0 then [g 0] else [])
        ++ ((List.range n).filter (fun i => p (i + 1))).map (fun i => g (i + 1)) := by
  rw [List.range_succ_eq_map, List.filter_cons, List.filter_map]
  have h1 : (p ∘ Nat.succ) = fun i => p (i + 1) := funext fun i => rfl
  rw [h1]
  cases h : p 0 <;> simp [h, List.map_map, Function.comp]

/-- The filter-then-map normal form equals the structural recursion. -/
theorem idx_eq_rec : ∀ S : List SubtitleEntry, idxCollapse S = collapseRec S
  | [] => rfl
  | [a] => rfl
  | a :: b :: rest => by
    have ih := idx_eq_rec (b :: rest)
    unfold idxCollapse at ih ⊢
    rw [show List.range (a :: b :: rest).length = List.range ((b :: rest).length + 1) from rfl,
      range_filter_map_cons]
    cases hsw : starts_with b.text a.text with
    | true =>
      rw [collapseRec, hsw, if_pos rfl, ← ih]
      simp [hsw, add_lt_add_iff_right]
    | false =>
      rw [collapseRec, hsw, if_neg Bool.false_ne_true, ← ih]
      simp [hsw, add_lt_add_iff_right]

/-- The source function equals the structural recursion. -/
theorem filter_prefix_eq_rec (S : List SubtitleEntry) :
    filter_prefix_subtitles S = collapseRec S :=
  (filter_prefix_eq_idx S).trans (idx_eq_rec S)

/-- A filterMap whose body is an if-guarded some is a filter-then-map. -/
theorem filterMap_guard {α β : Type} (p : α → Bool) (g : α → β) (l : List α) :
    l.filterMap (fun a => if p a then some (g a) else none) = (l.filter p).map g := by
  induction l with
  | nil => rfl
  | cons x xs ih => by_cases h : p x <;> simp [List.filterMap_cons, List.filter_cons, h, ih]

/-- The spec-worded collapse equals the filter-then-map normal form. -/
theorem collapse_spec_eq_idx (S : List SubtitleEntry) :
    collapse_spec S = idxCollapse S := by
  unfold collapse_spec idxCollapse
  rw [← filterMap_guard]
  apply List.filterMap_congr
  intro i _
  by_cases h1 : i < S.length - 1
  · cases h2 : starts_with (S.getD (i + 1) default).text (S.getD i default).text <;>
      simp [h1]
  · simp [h1]

/-- C1: for every sequence `S` and position `i < length S - 1`, the collapse
drops entry `i` exactly when its text is a literal prefix of entry `i+1`'s
text, and the last entry is always retained — i.e. the code's filter agrees
with the spec's drop/retain rule at every position. -/
theorem filter_prefix_subtitles_spec (S : List SubtitleEntry) :
    filter_prefix_subtitles S = collapse_spec S :=
  (filter_prefix_eq_idx S).trans (collapse_spec_eq_idx S).symm

/-- The structural collapse is a sublist of its input. -/
theorem collapseRec_sublist : ∀ S : List SubtitleEntry, (collapseRec S).Sublist S
  | [] => List.Sublist.refl []
  | [a] => List.Sublist.refl [a]
  | a :: b :: rest => by
    have ih := collapseRec_sublist (b :: rest)
    rw [collapseRec]
    cases hsw : starts_with b.text a.text with
    | true => rw [if_pos rfl]; exact ih.cons a
    | false => rw [if_neg Bool.false_ne_true]; exact ih.cons₂ a

/-- C6: the collapse output is a subsequence of its input — every retained
entry is a whole, unmodified element of the input, relative order is
preserved, and the output length is at most the input length. -/
theorem filter_prefix_subtitles_sublist (S : List SubtitleEntry) :
    (filter_prefix_subtitles S).Sublist S ∧ (filter_prefix_subtitles S).length ≤ S.length := by
  have h : (filter_prefix_subtitles S).Sublist S := by
    rw [filter_prefix_eq_rec]
    exact collapseRec_sublist S
  exact ⟨h, h.length_le⟩

/-- If no adjacent pair is in the prefix relation, the structural collapse is
the identity. -/
theorem collapseRec_eq_self :
    ∀ S : List SubtitleEntry,
      List.Chain' (fun x y => starts_with y.text x.text = false) S → collapseRec S = S
  | [], _ => rfl
  | [_], _ => rfl
  | a :: b :: rest, h => by
    rw [List.chain'_cons] at h
    rw [collapseRec, h.1, if_neg Bool.false_ne_true,
      collapseRec_eq_self (b :: rest) h.2]

/-- C7: if no entry's text is a literal prefix of its immediate successor's
text, the collapse returns the sequence unchanged. -/
theorem filter_prefix_subtitles_noChange (S : List SubtitleEntry)
    (h : List.Chain' (fun x y => starts_with y.text x.text = false) S) :
    filter_prefix_subtitles S = S := by
  rw [filter_prefix_eq_rec]
  exact collapseRec_eq_self S h

/-- Witness for C7 at the spec's own "similar start, not a prefix" example. -/
theorem filter_prefix_subtitles_noChange_witness :
    List.Chain' (fun x y => starts_with y.text x.text = false)
      [mkEntry "Hello world", mkEntry "Hello there", mkEntry "Helicopter"]
    ∧ filter_prefix_subtitles
        [mkEntry "Hello world", mkEntry "Hello there", mkEntry "Helicopter"]
      = [mkEntry "Hello world", mkEntry "Hello there", mkEntry "Helicopter"] :=
  ⟨List.chain'_cons.mpr ⟨by decide, List.chain'_pair.mpr (by decide)⟩,
   filter_prefix_subtitles_noChange _
     (List.chain'_cons.mpr ⟨by decide, List.chain'_pair.mpr (by decide)⟩)⟩

/-- C2 fails on the code: collapsing `["ab", "a", "abz"]` yields
`["ab", "abz"]`, and collapsing that again yields `["abz"]`, because
dropping the middle entry makes the first entry a prefix of its new
neighbour.  So `collapse` is not idempotent. -/
theorem collapse_not_idempotent :
    ¬ (filter_prefix_subtitles
        (filter_prefix_subtitles [mkEntry "ab", mkEntry "a", mkEntry "abz"])
      = filter_prefix_subtitles [mkEntry "ab", mkEntry "a", mkEntry "abz"]) := by
  decide

/-- C2 (amended): collapse applied to its own output is a fixed point
whenever no entry of the output has text that is a literal prefix of its
immediate successor's text; in general a single collapse pass need not be
idempotent. -/
theorem collapse_idem_of_output_chain_free (S : List SubtitleEntry)
    (h : List.Chain' (fun x y => starts_with y.text x.text = false)
      (filter_prefix_subtitles S)) :
    filter_prefix_subtitles (filter_prefix_subtitles S) = filter_prefix_subtitles S := by
  rw [filter_prefix_eq_rec (filter_prefix_subtitles S)]
  exact collapseRec_eq_self _ h

/-- Witness for the amended C2. -/
theorem collapse_idem_of_output_chain_free_witness :
    List.Chain' (fun x y => starts_with y.text x.text = false)
      (filter_prefix_subtitles [mkEntry "Hello", mkEntry "World"])
    ∧ filter_prefix_subtitles (filter_prefix_subtitles [mkEntry "Hello", mkEntry "World"])
      = filter_prefix_subtitles [mkEntry "Hello", mkEntry "World"] :=
  ⟨List.chain'_pair.mpr (by decide),
   collapse_idem_of_output_chain_free _ (List.chain'_pair.mpr (by decide))⟩

/-- Unfolding `prefixRuns` on two cons cells once the tail's runs are known. -/
theorem prefixRuns_cons_cons (a b : SubtitleEntry) (rest t : List SubtitleEntry)
    (rs : List (List SubtitleEntry)) (h : prefixRuns (b :: rest) = (b :: t) :: rs) :
    prefixRuns (a :: b :: rest)
      = if starts_with b.text a.text then (a :: b :: t) :: rs
        else [a] :: (b :: t) :: rs := by
  rw [prefixRuns, h]

/-- Every run produced on a nonempty list starts with the list's head. -/
theorem prefixRuns_shape :
    ∀ (b : SubtitleEntry) (rest : List SubtitleEntry),
      ∃ t rs, prefixRuns (b :: rest) = (b :: t) :: rs
  | _, [] => ⟨[], [], rfl⟩
  | b, c :: rest' => by
    obtain ⟨t', rs', h⟩ := prefixRuns_shape c rest'
    rw [prefixRuns_cons_cons b c rest' t' rs' h]
    cases hsw : starts_with c.text b.text with
    | true => exact ⟨c :: t', rs', if_pos rfl⟩
    | false => exact ⟨[], (c :: t') :: rs', if_neg Bool.false_ne_true⟩

/-- The runs concatenate back to the original list. -/
theorem prefixRuns_flatten : ∀ S : List SubtitleEntry, (prefixRuns S).flatten = S
  | [] => rfl
  | [a] => rfl
  | a :: b :: rest => by
    have ih := prefixRuns_flatten (b :: rest)
    obtain ⟨t, rs, h⟩ := prefixRuns_shape b rest
    rw [h] at ih
    rw [prefixRuns_cons_cons a b rest t rs h]
    cases hsw : starts_with b.text a.text with
    | true => rw [if_pos rfl]; simpa using ih
    | false => rw [if_neg Bool.false_ne_true]; simpa using ih

/-- No run is empty. -/
theorem prefixRuns_ne_nil : ∀ S : List SubtitleEntry, ∀ r ∈ prefixRuns S, r ≠ []
  | [], r, hr => by simp [prefixRuns] at hr
  | [a], r, hr => by
    simp [prefixRuns] at hr
    simp [hr]
  | a :: b :: rest, r, hr => by
    have ih := prefixRuns_ne_nil (b :: rest)
    obtain ⟨t, rs, h⟩ := prefixRuns_shape b rest
    rw [h] at ih
    rw [prefixRuns_cons_cons a b rest t rs h] at hr
    cases hsw : starts_with b.text a.text with
    | true =>
      rw [hsw, if_pos rfl] at hr
      rcases List.mem_cons.mp hr with h1 | h2
      · simp [h1]
      · exact ih r (List.mem_cons_of_mem _ h2)
    | false =>
      rw [hsw, if_neg Bool.false_ne_true] at hr
      rcases List.mem_cons.mp hr with h1 | h2
      · simp [h1]
      · exact ih r h2

/-- Within each run, consecutive entries are linked by the prefix relation. -/
theorem prefixRuns_chains :
    ∀ S : List SubtitleEntry, ∀ r ∈ prefixRuns S,
      List.Chain' (fun x y => starts_with y.text x.text = true) r
  | [], r, hr => by simp [prefixRuns] at hr
  | [a], r, hr => by
    simp [prefixRuns] at hr
    simp [hr]
  | a :: b :: rest, r, hr => by
    have ih := prefixRuns_chains (b :: rest)
    obtain ⟨t, rs, h⟩ := prefixRuns_shape b rest
    rw [h] at ih
    rw [prefixRuns_cons_cons a b rest t rs h] at hr
    cases hsw : starts_with b.text a.text with
    | true =>
      rw [hsw, if_pos rfl] at hr
      rcases List.mem_cons.mp hr with h1 | h2
      · subst h1
        exact List.chain'_cons.mpr ⟨hsw, ih (b :: t) (List.mem_cons_self _ _)⟩
      · exact ih r (List.mem_cons_of_mem _ h2)
    | false =>
      rw [hsw, if_neg Bool.false_ne_true] at hr
      rcases List.mem_cons.mp hr with h1 | h2
      · subst h1; simp
      · exact ih r h2

/-- Runs are maximal: the last entry of a run is never a prefix of the first
entry of the following run. -/
theorem prefixRuns_separated :
    ∀ S : List SubtitleEntry,
      List.Chain'
        (fun r s => ∀ x ∈ r.getLast?, ∀ y ∈ s.head?, starts_with y.text x.text = false)
        (prefixRuns S)
  | [] => by simp [prefixRuns]
  | [a] => by simp [prefixRuns]
  | a :: b :: rest => by
    have ih := prefixRuns_separated (b :: rest)
    obtain ⟨t, rs, h⟩ := prefixRuns_shape b rest
    rw [h] at ih
    rw [prefixRuns_cons_cons a b rest t rs h]
    cases hsw : starts_with b.text a.text with
    | true =>
      rw [if_pos rfl]
      rw [List.chain'_cons'] at ih ⊢
      refine ⟨?_, ih.2⟩
      intro s hs x hx y hy
      exact ih.1 s hs x (by simpa using hx) y hy
    | false =>
      rw [if_neg Bool.false_ne_true]
      refine List.chain'_cons.mpr ⟨?_, ih⟩
      intro x hx y hy
      simp at hx hy
      subst hx
      subst hy
      exact hsw

/-- The structural collapse keeps exactly the last entry of each run. -/
theorem collapseRec_eq_runs :
    ∀ S : List SubtitleEntry, collapseRec S = (prefixRuns S).filterMap List.getLast?
  | [] => rfl
  | [a] => rfl
  | a :: b :: rest => by
    have ih := collapseRec_eq_runs (b :: rest)
    obtain ⟨t, rs, h⟩ := prefixRuns_shape b rest
    rw [h] at ih
    rw [collapseRec, prefixRuns_cons_cons a b rest t rs h]
    cases hsw : starts_with b.text a.text with
    | true =>
      rw [if_pos rfl, if_pos rfl, ih]
      simp [List.filterMap_cons]
    | false =>
      rw [if_neg Bool.false_ne_true, if_neg Bool.false_ne_true, ih]
      simp [List.filterMap_cons]

/-- C3: `prefixRuns` partitions the input (in order) into nonempty maximal
runs of consecutive prefix-linked entries, and the collapse output is
exactly the last (longest) member of each run — in particular singleton
runs, the entries that belong to no longer chain, are kept as-is. -/
theorem filter_prefix_subtitles_runs (S : List SubtitleEntry) :
    (prefixRuns S).flatten = S
    ∧ (∀ r ∈ prefixRuns S,
        r ≠ [] ∧ List.Chain' (fun x y => starts_with y.text x.text = true) r)
    ∧ List.Chain'
        (fun r s => ∀ x ∈ r.getLast?, ∀ y ∈ s.head?, starts_with y.text x.text = false)
        (prefixRuns S)
    ∧ filter_prefix_subtitles S = (prefixRuns S).filterMap List.getLast? :=
  ⟨prefixRuns_flatten S,
   fun r hr => ⟨prefixRuns_ne_nil S r hr, prefixRuns_chains S r hr⟩,
   prefixRuns_separated S,
   (filter_prefix_eq_rec S).trans (collapseRec_eq_runs S)⟩

/-- Witness for C3 on a concrete mixed sequence: the runs, their flattening
and the collapse output are all evaluated explicitly. -/
theorem filter_prefix_subtitles_runs_witness :
    prefixRuns [mkEntry "H", mkEntry "He", mkEntry "Next"]
      = [[mkEntry "H", mkEntry "He"], [mkEntry "Next"]]
    ∧ ([mkEntry "H", mkEntry "He"] ≠ []
        ∧ List.Chain' (fun x y => starts_with y.text x.text = true)
          [mkEntry "H", mkEntry "He"])
    ∧ filter_prefix_subtitles [mkEntry "H", mkEntry "He", mkEntry "Next"]
      = [mkEntry "He", mkEntry "Next"] :=
  ⟨by decide,
   (filter_prefix_subtitles_runs [mkEntry "H", mkEntry "He", mkEntry "Next"]).2.1
     [mkEntry "H", mkEntry "He"] (by rw [show prefixRuns [mkEntry "H", mkEntry "He", mkEntry "Next"] = [[mkEntry "H", mkEntry "He"], [mkEntry "Next"]] from by decide]; exact List.mem_cons_self _ _),
   by rw [(filter_prefix_subtitles_runs [mkEntry "H", mkEntry "He", mkEntry "Next"]).2.2.2]; decide⟩

/-- A fold whose step never fails on the indices actually traversed stays in
the `some` fragment. -/
theorem foldl_option {α β : Type} (fO : Option β → α → Option β) (f : β → α → β) :
    ∀ l : List α, (∀ acc i, i ∈ l → fO (some acc) i = some (f acc i)) →
      ∀ acc : β, l.foldl fO (some acc) = some (l.foldl f acc) := by
  intro l
  induction l with
  | nil => intro _ acc; rfl
  | cons x t ih =>
    intro h acc
    rw [List.foldl_cons, List.foldl_cons, h acc x (List.mem_cons_self x t)]
    exact ih (fun acc i hi => h acc i (List.mem_cons_of_mem x hi)) _

/-- C10: the collapse is total and in-bounds — running it with every index
access and the `len - 1` subtraction checked never hits an out-of-bounds
access or underflow, and returns exactly the unchecked result.  In
particular `i + 1` is only read under `i < len - 1`, and `len - 1` is only
evaluated when the loop runs, i.e. when the list is nonempty. -/
theorem filter_prefix_subtitles_checked_eq (S : List SubtitleEntry) :
    filter_prefix_subtitles_checked S = some (filter_prefix_subtitles S) := by
  unfold filter_prefix_subtitles_checked filter_prefix_subtitles
  apply foldl_option
  intro acc i hi
  have hiLt : i < S.length := List.mem_range.mp hi
  have hpos : 1 ≤ S.length := Nat.succ_le_of_lt (Nat.lt_of_le_of_lt (Nat.zero_le i) hiLt)
  have hsub : checked_sub S.length 1 = some (S.length - 1) := by
    unfold checked_sub
    rw [if_pos hpos]
  by_cases hlast : i < S.length - 1
  · have h1 : i + 1 < S.length := by omega
    rw [hsub]
    simp only [Option.some_bind, if_pos hlast, List.get?_eq_get h1, List.get?_eq_get hiLt,
      Option.map_some', Option.some_bind]
    cases hb : starts_with (S.get ⟨i + 1, h1⟩).text (S.get ⟨i, hiLt⟩).text <;>
      simp only [List.get_eq_getElem] at hb <;>
      simp [hb, hlast, hiLt, h1]
  · rw [hsub]
    simp only [Option.some_bind, if_neg hlast, List.get?_eq_get hiLt]
    simp [hlast, hiLt]

/-- C4: if the read fails, or the read succeeds but the parse fails, the
stored transcript after the reload cycle is identical to its value before
the cycle. -/
theorem load_subtitles_failure_preserves (viewer : SubtitleViewer)
    (path_exists_now script_installed_now : Bool) (read_result : Option String)
    (parse : String → Option (List SubtitleEntry))
    (h : read_result = none ∨ ∃ c, read_result = some c ∧ parse c = none) :
    (load_subtitles viewer path_exists_now script_installed_now read_result parse).subtitles
      = viewer.subtitles := by
  rcases h with h | ⟨c, hc, hp⟩
  · subst h; rfl
  · subst hc
    simp [load_subtitles, hp]

/-- Witness for C4: a failed read and a failed parse each leave a prior
nonempty transcript untouched. -/
theorem load_subtitles_failure_preserves_witness :
    (load_subtitles ⟨[mkEntry "kept"], true, true⟩ false true none
        (fun _ => none)).subtitles = [mkEntry "kept"]
    ∧ (load_subtitles ⟨[mkEntry "kept"], true, true⟩ true true (some "garbage")
        (fun _ => none)).subtitles = [mkEntry "kept"] :=
  ⟨load_subtitles_failure_preserves _ _ _ _ _ (Or.inl rfl),
   load_subtitles_failure_preserves _ _ _ _ _ (Or.inr ⟨"garbage", rfl, rfl⟩)⟩

/-- C5: after a cycle in which both read and parse succeed the stored
transcript equals the collapse of the parsed entries; after a failed cycle
it equals its previous (last successfully computed) value. -/
theorem load_subtitles_transcript (viewer : SubtitleViewer)
    (path_exists_now script_installed_now : Bool) (read_result : Option String)
    (parse : String → Option (List SubtitleEntry)) :
    (∀ content subs, read_result = some content → parse content = some subs →
      (load_subtitles viewer path_exists_now script_installed_now read_result parse).subtitles
        = filter_prefix_subtitles subs)
    ∧ ((read_result = none ∨ ∃ content, read_result = some content ∧ parse content = none) →
      (load_subtitles viewer path_exists_now script_installed_now read_result parse).subtitles
        = viewer.subtitles) := by
  constructor
  · intro content subs hc hp
    subst hc
    simp [load_subtitles, hp]
  · intro h
    rcases h with h | ⟨c, hc, hp⟩
    · subst h; rfl
    · subst hc
      simp [load_subtitles, hp]

/-- Witness for C5: a successful read-and-parse installs the collapsed
parse result. -/
theorem load_subtitles_transcript_witness :
    (load_subtitles ⟨[], false, false⟩ true true (some "raw")
        (fun _ => some [mkEntry "Hello", mkEntry "Hello world"])).subtitles
      = filter_prefix_subtitles [mkEntry "Hello", mkEntry "Hello world"] :=
  (load_subtitles_transcript ⟨[], false, false⟩ true true (some "raw")
      (fun _ => some [mkEntry "Hello", mkEntry "Hello world"])).1
    "raw" [mkEntry "Hello", mkEntry "Hello world"] rfl rfl

/-- C8: every reload cycle stores the freshly polled presence status, no
matter whether the read and the parse succeed or fail. -/
theorem load_subtitles_presence (viewer : SubtitleViewer)
    (path_exists_now script_installed_now : Bool) (read_result : Option String)
    (parse : String → Option (List SubtitleEntry)) :
    (load_subtitles viewer path_exists_now script_installed_now read_result parse).file_exists
      = path_exists_now := by
  cases read_result with
  | none => rfl
  | some content =>
    cases hp : parse content with
    | none => simp [load_subtitles, hp]
    | some subs => simp [load_subtitles, hp]

end Theorems
